import Mathlib

/-!
Verification of the BNP Paribas PDF bank-report extraction pipeline
(`bnp.go`).  The Go source is shallowly embedded: PDF text fragments
become `Word`s, reconstructed lines become `Line`s, parsed transaction
records become `Op`s, and the balance reconciler produces `Value`s.
Horizontal columns (Go `float64`, used only for order comparisons and
equality) are embedded as rationals; monetary amounts (Go `int64`,
checked for range by `strconv.ParseInt`) as unbounded integers with the
explicit int64 bound where the code enforces it.
-/

deriving instance DecidableEq for Except

namespace Bnp

/-- Word is a single text command in a PDF stream, annotated with its
column location in the document (Go struct `Word`). -/
structure Word where
  Column : ℚ
  S : String
deriving DecidableEq, Inhabited

/-- Line is a reconstructed text line: the joined string and its words
(Go struct `Line`). -/
structure Line where
  Value : String
  Words : List Word
deriving DecidableEq, Inhabited

/-- Op represents a line in the bank report: account state if `IsTotal`,
account change otherwise; `Value` in eurocents (Go struct `Op`). -/
structure Op where
  Date : String
  Source : String
  SourceCol : ℚ
  Value : ℤ
  HasValue : Bool
  IsTotal : Bool
deriving DecidableEq, Inhabited

/-- Character class `\d` of Go regexp: an ASCII decimal digit. -/
def isDigitChar (c : Char) : Bool := '0' ≤ c && c ≤ '9'

/-- Test for Go regexp `^\d+$` (the source's `reDigits`): nonempty and
all digits. -/
def isDigits (s : String) : Bool := !s.data.isEmpty && s.data.all isDigitChar

/-- Numeric value of a decimal digit character. -/
def digitVal (c : Char) : ℕ := c.toNat - 48

/-- Numeric value of a string of decimal digits, most significant first. -/
def digitsVal (s : String) : ℕ := s.data.foldl (fun a c => 10 * a + digitVal c) 0

/-- Largest value of Go's `int64`. -/
def maxInt64 : ℕ := 9223372036854775807

/-- Model of Go `strconv.ParseInt(s, 10, 64)` on the all-digit strings the
source feeds it: succeeds exactly when `s` is a nonempty digit string whose
value fits in an `int64`. -/
def parseInt64 (s : String) : Option ℤ :=
  if isDigits s then (if digitsVal s ≤ maxInt64 then some (digitsVal s) else none) else none

/-- Helper for the three-fragment branch of `stripValue`: `head` `","`
`tail` already matched; parse `head ++ tail` and apply the column sign
rule.  `rest` is the reversed remainder of the line. -/
def stripValue3 (words : List Word) (head tail : Word) (rest : List Word) :
    List Word × ℤ × Bool :=
  match parseInt64 (head.S ++ tail.S) with
  | none => (words, 0, false)
  | some v => (rest.reverse, (if head.Column < 500 then -v else v), true)

/-- Model of Go `stripValue`: takes a word list, attempts to extract a
trailing amount like "123,45" or "12.345,67" (fragments `H` `","` `LL`
with `LL` of two digits, optionally preceded by `T` `"."`) and returns
the stripped words, the signed amount and success.  The `line` argument
is unused, exactly as in the source. -/
def stripValue (line : String) (words : List Word) : List Word × ℤ × Bool :=
  match words.reverse with
  | tail :: dot :: head :: rest =>
    if isDigits head.S && dot.S = "," && isDigits tail.S && tail.S.length = 2 then
      match rest with
      | dotw :: thw :: rest2 =>
        if dotw.S = "." && isDigits thw.S then
          match parseInt64 (thw.S ++ head.S ++ tail.S) with
          | none => (words, 0, false)
          | some v => (rest2.reverse, (if thw.Column < 500 then -v else v), true)
        else stripValue3 words head tail rest
      | rest => stripValue3 words head tail rest
    else (words, 0, false)
  | _ => (words, 0, false)

/-- Model of Go `stripDate`: attempts to extract a leading date like
"13.06" (fragments digits `"."` digits) and returns the stripped words
and the date string (empty on failure). -/
def stripDate (line : String) (words : List Word) : List Word × String :=
  match words with
  | head :: dot :: tail :: rest =>
    if isDigits head.S && dot.S = "." && isDigits tail.S then
      (rest, head.S ++ dot.S ++ tail.S)
    else (words, "")
  | _ => (words, "")

/-- Model of Go `joinWords`: fragment strings joined by single spaces. -/
def joinWords (words : List Word) : String :=
  String.intercalate " " (words.map (fun w => w.S))

/-- Character class `\s` of Go regexp: `[\t\n\f\r ]`. -/
def isSpaceChar (c : Char) : Bool :=
  c = ' ' || c = '\t' || c = '\n' || c = '\x0c' || c = '\r'

/-- Test for one match of `\d{2}\.\d{2}\.\d{4}` at the head of a
character list (the capture group of the source's `reStart`). -/
def isDatePat (cs : List Char) : Bool :=
  match cs with
  | d1 :: d2 :: p1 :: m1 :: m2 :: p2 :: y1 :: y2 :: y3 :: y4 :: _ =>
    isDigitChar d1 && isDigitChar d2 && p1 = '.' && isDigitChar m1 && isDigitChar m2 &&
      p2 = '.' && isDigitChar y1 && isDigitChar y2 && isDigitChar y3 && isDigitChar y4
  | _ => false

/-- Rightmost occurrence of `\d{2}\.\d{2}\.\d{4}` in a character list
(the capture preferred by the greedy `.*` before the group). -/
def findLastDate : List Char → Option (List Char)
  | [] => none
  | c :: rest =>
    match findLastDate rest with
    | some d => some d
    | none => if isDatePat (c :: rest) then some ((c :: rest).take 10) else none

/-- Model of `reStart.FindStringSubmatch` for the anchored Go regexp
`^SOLDE\s+.*(\d{2}\.\d{2}\.\d{4})`: the string must start with `SOLDE`
followed by at least one whitespace character; after the maximal
whitespace run, the greedy dot (which does not cross a newline) makes
the capture the rightmost date occurrence before the first newline. -/
def matchSolde (s : String) : Option String :=
  let cs := s.data
  if cs.take 5 = "SOLDE".data then
    let rest := cs.drop 5
    let ws := rest.takeWhile isSpaceChar
    if ws.isEmpty then none
    else
      (findLastDate ((rest.drop ws.length).takeWhile (fun c => c ≠ '\n'))).map
        fun d => String.mk d
  else none

/-- Model of Go `parseTotalLine`: attempts to parse an account state
line; yields `none` when the `SOLDE` pattern does not match, an error
when it matches but no trailing amount parses. -/
def parseTotalLine (line : Line) : Except String (Option Op) :=
  match matchSolde line.Value with
  | none => .ok none
  | some d =>
    match stripValue line.Value line.Words with
    | (w, v, true) =>
      .ok (some { Date := d, Source := joinWords w, SourceCol := -1,
                  Value := v, HasValue := true, IsTotal := true })
    | (_, _, false) => .error ("could not parse total line: " ++ line.Value)

/-- Model of Go `parseOpLine`: attempts to parse an account change line;
strips a leading date and a trailing amount, rejects lines still
carrying a second trailing amount (`TOTAL DES MONTANTS` summary), and
records the column of the first remaining fragment (the Go zero value 0
when none remains). -/
def parseOpLine (line : Line) : Option Op :=
  let s1 := stripDate line.Value line.Words
  let date := s1.2
  let s2 := stripValue line.Value s1.1
  let words := s2.1
  let s3 := stripValue line.Value words
  if s3.2.2 then
    -- Invalid summary "TOTAL DES MONTANTS" line
    none
  else
    some { Date := date, Source := joinWords words,
           SourceCol := (match words with | [] => 0 | w :: _ => w.Column),
           Value := (if s2.2.2 then s2.2.1 else 0), HasValue := s2.2.2,
           IsTotal := false }

/-- One merge-or-append step of Go `parseOps`: a record with its own date
is appended; a dateless record supplying an amount or source text is
merged into the most recently appended record (amount assigned
unconditionally, source text appended when the source columns agree). -/
def consolidate (acc : List Op) (op : Op) : List Op :=
  if op.Date ≠ "" then acc ++ [op]
  else
    match acc.getLast? with
    | none => acc
    | some prev =>
      if op.HasValue || op.Source ≠ "" then
        let prev1 := if op.HasValue then { prev with Value := op.Value, HasValue := true }
                     else prev
        let prev2 := if op.Source ≠ "" && op.SourceCol == prev.SourceCol then
                       { prev1 with Source := prev1.Source ++ op.Source }
                     else prev1
        acc.dropLast ++ [prev2]
      else acc

/-- Model of Go `strings.HasPrefix`. -/
def hasPrefixStr (s pre : String) : Bool := pre.data.isPrefixOf s.data

/-- Loop body of Go `parseOps` over the remaining lines, carrying the
already consolidated records. -/
def parseOpsAux (acc : List Op) : List Line → Except String (List Op)
  | [] => .ok acc
  | line :: rest =>
    if hasPrefixStr line.Value "TOTAL DES MONTANTS" then parseOpsAux acc rest
    else if hasPrefixStr line.Value "BNP PARIBAS SA : capital de" ||
            hasPrefixStr line.Value "Montant de votre autorisation" then .ok acc
    else
      match parseTotalLine line with
      | .error e => .error e
      | .ok top =>
        match (match top with | some op => some op | none => parseOpLine line) with
        | none => parseOpsAux acc rest
        | some op => parseOpsAux (consolidate acc op) rest

/-- Model of Go `parseOps`: sequence of Ops extracted from the lines of
a single stream, with partial operations consolidated. -/
def parseOps (lines : List Line) : Except String (List Op) :=
  parseOpsAux [] lines

/-- State of the column-counting scan of Go `filterOnSourceColumn`: the
count map (Go map lookup of a missing key yields 0), the current most
popular column and its count (both initialized to -1). -/
structure ColScan where
  counts : ℚ → ℕ
  maxCol : ℚ
  maxCount : ℤ

/-- Initial scan state of `filterOnSourceColumn`. -/
def colScanInit : ColScan := ⟨fun _ => 0, -1, -1⟩

/-- One step of the column-counting loop of `filterOnSourceColumn`: a
record with a nonnegative source column bumps that column's count, and
the most popular column is replaced only on a strictly larger count. -/
def colStep (s : ColScan) (op : Op) : ColScan :=
  if 0 ≤ op.SourceCol then
    let n := s.counts op.SourceCol + 1
    let s1 := if (n : ℤ) > s.maxCount then { s with maxCol := op.SourceCol, maxCount := n }
              else s
    { s1 with counts := fun c => if c = op.SourceCol then n else s1.counts c }
  else s

/-- Column-counting scan of `filterOnSourceColumn` over all records. -/
def colScan (ops : List Op) : ColScan := ops.foldl colStep colScanInit

/-- Model of Go `filterOnSourceColumn`: keeps the records whose source
column is negative (account states) or equal to the most popular
column. -/
def filterOnSourceColumn (ops : List Op) : List Op :=
  let maxCol := (colScan ops).maxCol
  ops.filter fun op => decide (op.SourceCol < 0) || op.SourceCol == maxCol

/-- Model of Go `hashOp`: the dedup key, concatenating the date, the
source label and `fmt.Sprintf("%f", op.Value)` — which, `Value` being an
`int64`, renders as the bad-verb string `%!f(int64=N)`. -/
def hashOp (op : Op) : String :=
  op.Date ++ "-" ++ op.Source ++ "-" ++ "%!f(int64=" ++ toString op.Value ++ ")"

/-- Inner dedup loop of Go `extractPDFOps` over one page's records,
carrying the set of seen keys and the output list. -/
def dedupAux (seen : List String) (acc : List Op) : List Op → List String × List Op
  | [] => (seen, acc)
  | op :: rest =>
    let h := hashOp op
    if h ∈ seen then dedupAux seen acc rest
    else dedupAux (h :: seen) (acc ++ [op]) rest

/-- Model of Go `extractPDFOps` with the per-page PDF extraction
abstracted into the input: given the filtered record list of each page
in page order, returns all records deduplicated by `hashOp`, keeping
first occurrences. -/
def extractPDFOps (pages : List (List Op)) : List Op :=
  (pages.foldl (fun st page => dedupAux st.1 st.2 page) ([], [])).2

/-- Value is the state of the account at a given date, in eurocents
(Go struct `Value`); the Go `time.Time` is embedded as the parsed
calendar date. -/
structure Date where
  year : ℕ
  month : ℕ
  day : ℕ
deriving DecidableEq, Inhabited

/-- Leap year rule used by Go's `time` package. -/
def isLeap (y : ℕ) : Bool := y % 4 = 0 && (y % 100 ≠ 0 || y % 400 = 0)

/-- Number of days of a month, as validated by Go `time.Parse`. -/
def daysIn (m y : ℕ) : ℕ :=
  if m = 2 then (if isLeap y then 29 else 28)
  else if m = 4 || m = 6 || m = 9 || m = 11 then 30
  else 31

/-- Model of Go `time.Parse("02.01.2006", s)`: exactly the ten
characters `DD.MM.YYYY`, with the month in 1..12 and the day in range
for the month. -/
def parseDate (s : String) : Option Date :=
  match s.data with
  | [d1, d2, p1, m1, m2, p2, y1, y2, y3, y4] =>
    if isDigitChar d1 && isDigitChar d2 && p1 = '.' && isDigitChar m1 && isDigitChar m2 &&
        p2 = '.' && isDigitChar y1 && isDigitChar y2 && isDigitChar y3 && isDigitChar y4 then
      let day := 10 * digitVal d1 + digitVal d2
      let month := 10 * digitVal m1 + digitVal m2
      let year := 1000 * digitVal y1 + 100 * digitVal y2 + 10 * digitVal y3 + digitVal y4
      if 1 ≤ month && month ≤ 12 && 1 ≤ day && day ≤ daysIn month year then
        some ⟨year, month, day⟩
      else none
    else none
  | _ => none

/-- Model of Go `time.Time.After` on dates parsed at midnight UTC:
lexicographic strict order on (year, month, day). -/
def dateAfter (a b : Date) : Bool :=
  a.year > b.year || (a.year = b.year &&
    (a.month > b.month || (a.month = b.month && a.day > b.day)))

/-- Value is a point of the output series (Go struct `Value`). -/
structure Value where
  Date : Date
  Source : String
  Value : ℤ
deriving DecidableEq, Inhabited

/-- Error cases of Go `convertOpsToValues`, one per `fmt.Errorf` site
(plus the forwarded `time.Parse` failure). -/
inductive ConvErr
  | notEnough (n : ℕ)
  | firstNotTotal
  | lastNotTotal
  | totalMismatch
  | badDate
  | orphanChange
deriving DecidableEq, Inhabited

/-- Reduction of an integer into the int64 range: the unique value in
[-2^63, 2^63-1] congruent modulo 2^64.  Go's `total += op.Value` on
int64 operands produces exactly this wrapped sum (wraparound is defined
behavior in Go). -/
def wrapInt64 (n : ℤ) : ℤ := (n + 2 ^ 63) % 2 ^ 64 - 2 ^ 63

/-- Date resolution for a change record in `convertOpsToValues`: pair
the partial date with the year of the previous resolved date, and when
the result lies chronologically before that date, re-resolve with the
next year (December→January rollover). -/
def resolveChangeDate (prev : Date) (d : String) : Except ConvErr Date :=
  match parseDate (d ++ "." ++ toString prev.year) with
  | none => .error .badDate
  | some date =>
    if dateAfter prev date then
      match parseDate (d ++ "." ++ toString (prev.year + 1)) with
      | none => .error .badDate
      | some date2 => .ok date2
    else .ok date

/-- Main loop of Go `convertOpsToValues`: checks each account state
against the running total and applies each change to it (with Go's
wrapping int64 addition), emitting one `Value` per record. -/
def convertAux (total : ℤ) (acc : List Value) : List Op → Except ConvErr (List Value)
  | [] => .ok acc
  | op :: rest =>
    if op.IsTotal then
      if op.Value ≠ total then .error .totalMismatch
      else
        match parseDate op.Date with
        | none => .error .badDate
        | some date => convertAux total (acc ++ [⟨date, op.Source, total⟩]) rest
    else
      let total1 := wrapInt64 (total + op.Value)
      match acc.getLast? with
      | none => .error .orphanChange
      | some v =>
        match resolveChangeDate v.Date op.Date with
        | .error e => .error e
        | .ok date => convertAux total1 (acc ++ [⟨date, op.Source, total1⟩]) rest

/-- Model of Go `convertOpsToValues`: checks the record sequence starts
and ends with an account state, applies changes iteratively and checks
intermediate states match parsed states. -/
def convertOpsToValues (ops : List Op) : Except ConvErr (List Value) :=
  if ops.length < 2 then .error (.notEnough ops.length)
  else
    let first := ops.headD default
    let last := ops.getLastD default
    if !first.IsTotal then .error .firstNotTotal
    else if !last.IsTotal then .error .lastNotTotal
    else convertAux first.Value [] ops

/-- Kinds of `pdf.Value` nodes distinguished by `walk`: only
dictionaries and arrays have children. -/
inductive VKind
  | dict
  | array
  | stream
  | scalar
deriving DecidableEq, Inhabited

/-- Finite object graph of `pdf.Value` nodes, each node named by the
`uint32` identity that `KeyId`/`IndexId` report: `ids` is the finite
universe of identities, `kind` the node kind and `children` the
identities of the node's dictionary values or array elements, in key or
index order. -/
structure PdfGraph where
  ids : Finset ℕ
  kind : ℕ → VKind
  children : ℕ → List ℕ

/-- Outcome of a (fuel-bounded) traversal: clean completion, the first
callback error, or fuel exhaustion — which the termination theorem
rules out for sufficient fuel. -/
inductive WalkOut (E : Type)
  | ok : WalkOut E
  | err : E → WalkOut E
  | fuelOut : WalkOut E
deriving DecidableEq

/-- Loop of Go `walk` over the children of one node, parameterized by
the recursive descent `rec` into a child: skips a child whose identity
is already on the current path, otherwise descends with the identity
added (the sibling calls see the original `seen`, matching the
insert-then-delete of the source), and stops at the first error. -/
def walkKids {E : Type} (rec : ℕ → Finset ℕ → List ℕ × WalkOut E) :
    List ℕ → Finset ℕ → List ℕ × WalkOut E
  | [], _ => ([], .ok)
  | c :: cs, seen =>
    if c ∈ seen then walkKids rec cs seen
    else
      let r := rec c (insert c seen)
      match r.2 with
      | .ok =>
        let r2 := walkKids rec cs seen
        (r.1 ++ r2.1, r2.2)
      | out => (r.1, out)

/-- Model of the inner `walkNode` closure of Go `walk`: invokes the
callback on the node, then, for dictionary and array nodes, descends
into the children via `walkKids`.  Returns the pre-order list of
visited node identities and the outcome.  The explicit fuel only
bounds the recursion depth; the source has none. -/
def walkNodeF (g : PdfGraph) {E : Type} (cb : ℕ → Except E Unit) :
    ℕ → ℕ → Finset ℕ → List ℕ × WalkOut E
  | 0, _, _ => ([], .fuelOut)
  | fuel + 1, v, seen =>
    match cb v with
    | .error e => ([v], .err e)
    | .ok _ =>
      match g.kind v with
      | .dict =>
        let r := walkKids (walkNodeF g cb fuel) (g.children v) seen
        (v :: r.1, r.2)
      | .array =>
        let r := walkKids (walkNodeF g cb fuel) (g.children v) seen
        (v :: r.1, r.2)
      | _ => ([v], .ok)

/-- Model of Go `walk`: traverses the graph from the root with an empty
on-path set.  The fuel `g.ids.card + 1` dominates every reachable
recursion depth, so the traversal never runs out (proved below). -/
def walk (g : PdfGraph) {E : Type} (cb : ℕ → Except E Unit) (root : ℕ) :
    List ℕ × WalkOut E :=
  walkNodeF g cb (g.ids.card + 1) root ∅

/-- Number of records of a list whose source column is defined
(nonnegative) and equal to `c` — the quantity the scan of
`filterOnSourceColumn` counts. -/
def colCount (ops : List Op) (c : ℚ) : ℕ :=
  ops.countP fun op => decide (0 ≤ op.SourceCol) && op.SourceCol == c

/-- Self-referential one-node graph: node 0 is a dictionary whose only
child is node 0 itself. -/
def selfLoopG : PdfGraph :=
  ⟨{0}, fun _ => .dict, fun i => if i = 0 then [0] else []⟩

/-- Diamond graph: node 3 is shared, reachable from the root 0 both
through node 1 and through node 2. -/
def diamondG : PdfGraph :=
  ⟨{0, 1, 2, 3}, fun _ => .dict,
   fun i => if i = 0 then [1, 2] else if i = 1 then [3] else if i = 2 then [3] else []⟩

/-- Callback failing at node 3. -/
def cbErr3 : ℕ → Except String Unit := fun n => if n = 3 then .error "boom" else .ok ()

/-- Change line carrying a date, a source label at column 100 and the
amount "1,23" on the credit side. -/
def lineDated : Line :=
  ⟨"05 . 03 ABC 1 , 23",
   [⟨10, "05"⟩, ⟨20, "."⟩, ⟨30, "03"⟩, ⟨100, "ABC"⟩, ⟨520, "1"⟩, ⟨530, ","⟩, ⟨540, "23"⟩]⟩

/-- Continuation line carrying only the amount "9,01" on the credit
side: no date, no source label. -/
def lineAmountOnly : Line := ⟨"9 , 01", [⟨520, "9"⟩, ⟨530, ","⟩, ⟨540, "01"⟩]⟩

/-- Change line carrying a date and an amount but no source label:
after stripping both, no fragment remains. -/
def lineNoSource : Line :=
  ⟨"26 . 02 1 , 23",
   [⟨10, "26"⟩, ⟨20, "."⟩, ⟨30, "02"⟩, ⟨520, "1"⟩, ⟨530, ","⟩, ⟨540, "23"⟩]⟩

/-- Record parsed from `lineNoSource`: its source column is the Go zero
value 0. -/
def opNoSource : Op := ⟨"26.02", "", 0, 123, true, false⟩

/-- Change record at source column 300. -/
def opA300 : Op := ⟨"a", "x", 300, 10, true, false⟩

/-- Second change record at source column 300. -/
def opB300 : Op := ⟨"b", "y", 300, 20, true, false⟩

/-- Record sequence whose first entry is a change-record. -/
def opsFirstChange : List Op :=
  [⟨"02.01", "T", 100, 50, true, false⟩, ⟨"03.01.2021", "U", -1, 150, true, true⟩]

/-- Record sequence exercising the December→January rollover: a total
on 31.12.2020, a change dated "02.01", a closing total on 03.01.2021. -/
def rolloverOps : List Op :=
  [⟨"31.12.2020", "S", -1, 100, true, true⟩,
   ⟨"02.01", "T", 100, 50, true, false⟩,
   ⟨"03.01.2021", "U", -1, 150, true, true⟩]

/-- Record sequence accepted by the reconciler: totals of 100 and 150
around a change of +50. -/
def chainOps : List Op :=
  [⟨"01.01.2021", "S", -1, 100, true, true⟩,
   ⟨"02.01", "T", 100, 50, true, false⟩,
   ⟨"03.01.2021", "U", -1, 150, true, true⟩]

/-- Value series the reconciler emits for `chainOps`. -/
def chainValues : List Value :=
  [⟨⟨2021, 1, 1⟩, "S", 100⟩, ⟨⟨2021, 1, 2⟩, "T", 150⟩, ⟨⟨2021, 1, 3⟩, "U", 150⟩]

/-- First record of the two-page overlap example. -/
def op1ex : Op := ⟨"01.01", "A", 100, 10, true, false⟩

/-- Second record of the two-page overlap example. -/
def op2ex : Op := ⟨"02.01", "B", 100, 20, true, false⟩

/-- Third record of the two-page overlap example. -/
def op3ex : Op := ⟨"03.01", "C", 100, 30, true, false⟩

/-- Fourth record of the two-page overlap example, new on page two. -/
def op4ex : Op := ⟨"04.01", "D", 100, 40, true, false⟩

/-- Total-record of the dedup-key collision example. -/
def opTotalDup : Op := ⟨"01.01.2021", "S", -1, 100, true, true⟩

/-- Change-record agreeing with `opTotalDup` on date, source and stored
amount but differing on both flags (and column). -/
def opChangeDup : Op := ⟨"01.01.2021", "S", 300, 100, false, false⟩

/-- Change-records at columns 100, 100, 100 and 250, plus one
total-record (no source column) — the noise-filter example. -/
def noiseOps : List Op :=
  [⟨"a", "x", 100, 1, true, false⟩, ⟨"b", "y", 100, 2, true, false⟩,
   ⟨"c", "z", 100, 3, true, false⟩, ⟨"d", "t", 250, 4, true, false⟩,
   ⟨"e", "u", -1, 5, true, true⟩]

/-- Relation between a starting running total, a record list and the
emitted value list of one successful pass of the reconciler loop: a
total-record must state the running total and its value repeats it; a
change-record's value shifts the running total by its amount under
Go's wrapping int64 addition. -/
inductive ChainRel : ℤ → List Op → List Value → Prop
  | nil (t : ℤ) : ChainRel t [] []
  | tot (t : ℤ) (op : Op) (v : Value) (ops : List Op) (vs : List Value) :
      op.IsTotal = true → op.Value = t → v.Value = t →
      ChainRel t ops vs → ChainRel t (op :: ops) (v :: vs)
  | chg (t : ℤ) (op : Op) (v : Value) (ops : List Op) (vs : List Value) :
      op.IsTotal = false → v.Value = wrapInt64 (t + op.Value) →
      ChainRel (wrapInt64 (t + op.Value)) ops vs → ChainRel t (op :: ops) (v :: vs)

/-- Record sequence reaching int64 wraparound: totals of +(2^63 - 1)
and -(2^63 - 1) around a change of +2; Go's wrapping addition makes
the running total match the closing total, so the reconciler accepts
it. -/
def wrapOps : List Op :=
  [⟨"01.01.2021", "S", -1, 9223372036854775807, true, true⟩,
   ⟨"02.01", "T", 100, 2, true, false⟩,
   ⟨"03.01.2021", "U", -1, -9223372036854775807, true, true⟩]

/-- Value series the reconciler emits for `wrapOps`: the balance jumps
from the maximal int64 to the minimal-plus-one by adding 2. -/
def wrapValues : List Value :=
  [⟨⟨2021, 1, 1⟩, "S", 9223372036854775807⟩,
   ⟨⟨2021, 1, 2⟩, "T", -9223372036854775807⟩,
   ⟨⟨2021, 1, 3⟩, "U", -9223372036854775807⟩]

/-- Invariant of the column-counting scan: the recorded maximum count is
the count of the recorded most popular column (or still the initial -1
with all counts zero), and no column's count exceeds it. -/
def ColInv (s : ColScan) : Prop :=
  ((s.counts s.maxCol : ℤ) = s.maxCount ∨ (s.maxCount = -1 ∧ ∀ c, s.counts c = 0)) ∧
  (∀ c, (s.counts c : ℤ) ≤ max s.maxCount 0)

/- ------------------------------------------------------------------ -/
/- Theorems                                                           -/
/- ------------------------------------------------------------------ -/

/-- Concatenation of digit strings is a digit string. -/
theorem isDigits_append {a b : String} (ha : isDigits a = true) (hb : isDigits b = true) :
    isDigits (a ++ b) = true := by
  simp only [isDigits, String.data_append, Bool.and_eq_true, Bool.not_eq_eq_eq_not,
    Bool.not_true, List.all_append] at *
  refine ⟨?_, ha.2, hb.2⟩
  have h1 := ha.1
  cases hd : a.data with
  | nil => rw [hd] at h1; simp [List.isEmpty] at h1
  | cons x xs => simp [List.isEmpty]

/-- Evaluation of the `strconv.ParseInt` model on an in-range digit
string. -/
theorem parseInt64_eq {s : String} (h1 : isDigits s = true) (h2 : digitsVal s ≤ maxInt64) :
    parseInt64 s = some (digitsVal s) := by
  simp [parseInt64, h1, h2]

/-- C4, counterexample: the minor-unit amount N = 2^63 = 9223372036854775808
is formatted per the amount grammar as the fragments "92233720368547758" ","
"08" (all-digit head, two-digit tail), yet `stripValue` does not recover it:
`strconv.ParseInt` overflows the int64 range and the extraction fails. -/
theorem stripValue_roundtrip_counterexample :
    isDigits "92233720368547758" = true ∧ isDigits "08" = true ∧
    ("08" : String).length = 2 ∧
    digitsVal ("92233720368547758" ++ "08") = 9223372036854775808 ∧
    stripValue "" [⟨600, "92233720368547758"⟩, ⟨610, ","⟩, ⟨620, "08"⟩] =
      ([⟨600, "92233720368547758"⟩, ⟨610, ","⟩, ⟨620, "08"⟩], 0, false) := by
  refine ⟨by decide, by decide, by decide, by decide, by decide⟩

/-- C4, amended: for every integer minor-unit amount representable in an
int64 and formatted per the amount grammar as fragments `H` `","` `LL`
(`LL` of exactly two digits) or `T` `"."` `H` `","` `LL`, `stripValue`
recovers exactly its value, negated exactly when the column of the first
consumed fragment is below 500 layout units. -/
theorem stripValue_roundtrip_int64 :
    (∀ (line : String) (c1 c2 c3 : ℚ) (h ll : String),
        isDigits h = true → isDigits ll = true → ll.length = 2 →
        digitsVal (h ++ ll) ≤ maxInt64 →
        stripValue line [⟨c1, h⟩, ⟨c2, ","⟩, ⟨c3, ll⟩] =
          ([], (if c1 < 500 then -(digitsVal (h ++ ll) : ℤ) else (digitsVal (h ++ ll) : ℤ)),
            true)) ∧
    (∀ (line : String) (c1 c2 c3 c4 c5 : ℚ) (t h ll : String),
        isDigits t = true → isDigits h = true → isDigits ll = true → ll.length = 2 →
        digitsVal (t ++ h ++ ll) ≤ maxInt64 →
        stripValue line [⟨c1, t⟩, ⟨c2, "."⟩, ⟨c3, h⟩, ⟨c4, ","⟩, ⟨c5, ll⟩] =
          ([], (if c1 < 500 then -(digitsVal (t ++ h ++ ll) : ℤ)
                else (digitsVal (t ++ h ++ ll) : ℤ)),
            true)) := by
  constructor
  · intro line c1 c2 c3 h ll hh hll hl2 hb
    simp [stripValue, stripValue3, hh, hll, hl2, parseInt64_eq (isDigits_append hh hll) hb]
  · intro line c1 c2 c3 c4 c5 t h ll ht hh hll hl2 hb
    have hd : isDigits (t ++ (h ++ ll)) = true := isDigits_append ht (isDigits_append hh hll)
    rw [← String.append_assoc] at hd
    simp [stripValue, hh, hll, hl2, ht, parseInt64_eq hd hb]

/-- C4, witness: concrete instances of both grammar shapes, a debit
"1,23" at column 600 (credit side, positive) and "1.234,56" at column
100 (debit side, negative). -/
theorem stripValue_roundtrip_int64_witness :
    stripValue "" [⟨600, "1"⟩, ⟨610, ","⟩, ⟨620, "23"⟩] = ([], 123, true) ∧
    stripValue "" [⟨100, "1"⟩, ⟨110, "."⟩, ⟨120, "234"⟩, ⟨130, ","⟩, ⟨140, "56"⟩] =
      ([], -123456, true) := by
  constructor
  · have := stripValue_roundtrip_int64.1 "" 600 610 620 "1" "23"
      (by decide) (by decide) (by decide) (by decide)
    simpa using this
  · have := stripValue_roundtrip_int64.2 "" 100 110 120 130 140 "1" "234" "56"
      (by decide) (by decide) (by decide) (by decide) (by decide)
    simpa using this

/-- C1, counterexample: the record parsed from `lineDated` carries the
amount 123; the following `lineAmountOnly` parses to a dateless record
supplying the amount 901, and its merge replaces the predecessor's
amount 123 by 901 even though the predecessor already had one. -/
theorem merge_amount_counterexample :
    parseOps [lineDated] = .ok [⟨"05.03", "ABC", 100, 123, true, false⟩] ∧
    parseOpLine lineAmountOnly = some ⟨"", "", 0, 901, true, false⟩ ∧
    parseOps [lineDated, lineAmountOnly] = .ok [⟨"05.03", "ABC", 100, 901, true, false⟩] := by
  refine ⟨by decide, by decide, by decide⟩

/-- C1, amended: during consolidation, a dateless record supplying an
amount makes the most recently appended record adopt that amount
unconditionally — any amount the predecessor already carried is
overwritten — while source text is appended only when the source
columns match. -/
theorem merge_amount_overwrites (acc : List Op) (prev op : Op)
    (hacc : acc.getLast? = some prev) (hdate : op.Date = "") (hval : op.HasValue = true) :
    consolidate acc op =
      acc.dropLast ++
        [{ prev with
           Value := op.Value,
           HasValue := true,
           Source := (if (op.Source ≠ "" && op.SourceCol == prev.SourceCol)
                      then prev.Source ++ op.Source else prev.Source) }] := by
  simp only [consolidate, hdate, hacc, hval]
  split_ifs <;> simp_all

/-- C1, witness: merging the amount-only record into the record parsed
from `lineDated` overwrites amount 123 with 901. -/
theorem merge_amount_overwrites_witness :
    consolidate [⟨"05.03", "ABC", 100, 123, true, false⟩] ⟨"", "", 0, 901, true, false⟩ =
      [⟨"05.03", "ABC", 100, 901, true, false⟩] := by
  have := merge_amount_overwrites [⟨"05.03", "ABC", 100, 123, true, false⟩]
    ⟨"05.03", "ABC", 100, 123, true, false⟩ ⟨"", "", 0, 901, true, false⟩ rfl rfl rfl
  simpa using this

/-- C2, counterexample: `lineNoSource` ("26.02" followed only by an
amount) parses to a change-record whose source column is 0 — not a
negative sentinel, so the noise filter treats it as a defined column —
and on a page whose dominant column is 300 the filter discards it. -/
theorem no_fragment_sourcecol_counterexample :
    parseOpLine lineNoSource = some opNoSource ∧
    opNoSource.SourceCol = 0 ∧
    ¬ (opNoSource.SourceCol < 0) ∧
    filterOnSourceColumn [opA300, opB300, opNoSource] = [opA300, opB300] := by
  refine ⟨by decide, by decide, by decide, by decide⟩

/-- C2, amended: a change-record whose line, after stripping the date
and the amount, has no remaining fragments gets source column 0 (the Go
zero value, not the negative sentinel of total-records) and an empty
source label; the noise filter counts 0 as a defined column, so such a
record is retained exactly when the page's dominant column is 0. -/
theorem no_fragment_sourcecol_zero :
    (∀ (line : Line) (op : Op),
        (stripValue line.Value (stripDate line.Value line.Words).1).1 = [] →
        parseOpLine line = some op →
        op.SourceCol = 0 ∧ op.Source = "") ∧
    (∀ (ops : List Op) (op : Op), op ∈ ops → op.SourceCol = 0 →
        (op ∈ filterOnSourceColumn ops ↔ (colScan ops).maxCol = 0)) := by
  constructor
  · intro line op hrem hop
    simp only [parseOpLine, hrem] at hop
    have h3 : stripValue line.Value ([] : List Word) = ([], 0, false) := rfl
    rw [h3] at hop
    simp at hop
    rw [← hop]
    exact ⟨rfl, rfl⟩
  · intro ops op hmem hcol
    simp only [filterOnSourceColumn, List.mem_filter]
    constructor
    · rintro ⟨-, hp⟩
      simp only [hcol, Bool.or_eq_true, decide_eq_true_eq, beq_iff_eq] at hp
      rcases hp with hp | hp
      · exact absurd hp (by norm_num)
      · exact hp.symm
    · intro hmax
      exact ⟨hmem, by simp [hcol, hmax]⟩

/-- C2, witness: the general statement instantiated on `lineNoSource`
and a page dominated by column 300. -/
theorem no_fragment_sourcecol_zero_witness :
    (opNoSource.SourceCol = 0 ∧ opNoSource.Source = "") ∧
    (opNoSource ∈ filterOnSourceColumn [opA300, opB300, opNoSource] ↔
      (colScan [opA300, opB300, opNoSource]).maxCol = 0) := by
  refine ⟨no_fragment_sourcecol_zero.1 lineNoSource opNoSource (by decide) (by decide),
    no_fragment_sourcecol_zero.2 [opA300, opB300, opNoSource] opNoSource (by decide)
      (by decide)⟩

/-- C6: the balance reconciler fails on every record sequence with
fewer than two entries or whose first or last entry is not a
total-record, through one of its three boundary checks, emitting no
`Value` at all (the error result carries none). -/
theorem reconciler_boundary_error (ops : List Op)
    (h : ops.length < 2 ∨ (ops.headD default).IsTotal = false ∨
         (ops.getLastD default).IsTotal = false) :
    convertOpsToValues ops = .error (.notEnough ops.length) ∨
    convertOpsToValues ops = .error .firstNotTotal ∨
    convertOpsToValues ops = .error .lastNotTotal := by
  simp only [List.headD_eq_head?, List.getLastD_eq_getLast?] at h
  unfold convertOpsToValues
  by_cases hlen : ops.length < 2
  · exact Or.inl (by simp [hlen])
  · rcases h with h | h | h
    · exact absurd h hlen
    · exact Or.inr (Or.inl (by simp [hlen, h]))
    · by_cases hf : (ops.head?.getD default).IsTotal
      · exact Or.inr (Or.inr (by simp [hlen, hf, h]))
      · exact Or.inr (Or.inl (by simp [hlen, hf]))

/-- C6, witness: a sequence whose first record is a change-record fails
with the first-boundary error. -/
theorem reconciler_boundary_error_witness :
    convertOpsToValues opsFirstChange = .error (.notEnough opsFirstChange.length) ∨
    convertOpsToValues opsFirstChange = .error .firstNotTotal ∨
    convertOpsToValues opsFirstChange = .error .lastNotTotal :=
  reconciler_boundary_error opsFirstChange (Or.inr (Or.inl (by decide)))

/-- C5: a change-record's partial date is first paired with the year of
the preceding resolved date; whenever that resolution lies
chronologically before the preceding date, it is re-resolved with the
year plus one.  In particular "02.01" after 31.12.2020 resolves to
2021-01-02 (also end-to-end through the reconciler). -/
theorem date_rollover :
    (∀ (prev : Date) (d : String) (date : Date),
        parseDate (d ++ "." ++ toString prev.year) = some date →
        dateAfter prev date = true →
        resolveChangeDate prev d =
          (match parseDate (d ++ "." ++ toString (prev.year + 1)) with
           | none => .error .badDate
           | some date2 => .ok date2)) ∧
    resolveChangeDate ⟨2020, 12, 31⟩ "02.01" = .ok ⟨2021, 1, 2⟩ ∧
    (convertOpsToValues rolloverOps).map (fun vs => vs.map Value.Date) =
      .ok [⟨2020, 12, 31⟩, ⟨2021, 1, 2⟩, ⟨2021, 1, 3⟩] := by
  refine ⟨?_, by decide, by decide⟩
  intro prev d date h1 h2
  simp [resolveChangeDate, h1, h2]

/-- C5, witness: the general rollover rule applied to the concrete pair
(31.12.2020, "02.01"), whose first resolution 02.01.2020 lies before
the preceding date. -/
theorem date_rollover_witness :
    resolveChangeDate ⟨2020, 12, 31⟩ "02.01" =
      (match parseDate ("02.01" ++ "." ++ toString ((2021 : ℕ))) with
       | none => Except.error ConvErr.badDate
       | some date2 => Except.ok date2) :=
  date_rollover.1 ⟨2020, 12, 31⟩ "02.01" ⟨2020, 1, 2⟩ (by decide) (by decide)

/-- C10: the dedup key is built only from a record's date string, source
label and stored amount, ignoring the total-flag and the amount-present
flag; two records agreeing on those three fields collide, so the later
one is dropped by cross-page deduplication. -/
theorem hash_ignores_flags (a b : Op) (hd : a.Date = b.Date) (hs : a.Source = b.Source)
    (hv : a.Value = b.Value) :
    hashOp a = hashOp b ∧ extractPDFOps [[a], [b]] = [a] := by
  have hh : hashOp a = hashOp b := by simp [hashOp, hd, hs, hv]
  refine ⟨hh, ?_⟩
  simp [extractPDFOps, dedupAux, ← hh]

/-- C10, witness: a total-record and a change-record agreeing on date,
source and stored amount but differing on both flags collide, and the
change-record on the second page is silently dropped. -/
theorem hash_ignores_flags_witness :
    hashOp opTotalDup = hashOp opChangeDup ∧
    extractPDFOps [[opTotalDup], [opChangeDup]] = [opTotalDup] :=
  hash_ignores_flags opTotalDup opChangeDup rfl rfl rfl

/-- Effect of one scan step on the count map: the record's own column
(when defined) is bumped by one, all other counts are unchanged. -/
theorem colStep_counts (s : ColScan) (op : Op) (c : ℚ) :
    (colStep s op).counts c =
      s.counts c + (if 0 ≤ op.SourceCol ∧ op.SourceCol = c then 1 else 0) := by
  by_cases h0 : 0 ≤ op.SourceCol
  · by_cases hc : c = op.SourceCol
    · subst hc
      simp [colStep, h0]
    · have h1 : ¬ (op.SourceCol = c) := fun h => hc h.symm
      simp only [colStep, h0, if_true, true_and]
      simp only [hc, if_false, h1, and_false]
      split <;> simp
  · simp [colStep, h0]

/-- Effect of one scan step on the most popular column: it moves to the
record's column exactly when that column's incremented count strictly
exceeds the maximum so far. -/
theorem colStep_maxCol (s : ColScan) (op : Op) :
    (colStep s op).maxCol =
      if 0 ≤ op.SourceCol ∧ ((s.counts op.SourceCol : ℤ) + 1 > s.maxCount)
      then op.SourceCol else s.maxCol := by
  by_cases h0 : 0 ≤ op.SourceCol
  · by_cases hgt : (s.counts op.SourceCol : ℤ) + 1 > s.maxCount
    · have hgt2 : ((s.counts op.SourceCol + 1 : ℕ) : ℤ) > s.maxCount := by push_cast; omega
      simp [colStep, h0, hgt, hgt2]
    · have hgt2 : ¬ ((s.counts op.SourceCol + 1 : ℕ) : ℤ) > s.maxCount := by
        push_cast at hgt ⊢; omega
      simp [colStep, h0, hgt, hgt2]
  · simp [colStep, h0]

/-- The scan's count map after a fold records exactly `colCount` of the
processed records, on top of the initial counts. -/
theorem foldl_colStep_counts (ops : List Op) :
    ∀ (s : ColScan) (c : ℚ),
      (List.foldl colStep s ops).counts c = s.counts c + colCount ops c := by
  induction ops with
  | nil => intro s c; simp [colCount]
  | cons op rest ih =>
    intro s c
    simp only [List.foldl_cons, ih, colStep_counts, colCount, List.countP_cons,
      Bool.and_eq_true, decide_eq_true_eq, beq_iff_eq]
    split_ifs <;> omega

/-- The count map of the full scan is `colCount`. -/
theorem colScan_counts (ops : List Op) (c : ℚ) :
    (colScan ops).counts c = colCount ops c := by
  simpa [colScanInit] using foldl_colStep_counts ops colScanInit c

/-- The scan invariant holds initially. -/
theorem colInv_init : ColInv colScanInit := by
  refine ⟨Or.inr ⟨rfl, fun c => rfl⟩, fun c => ?_⟩
  simp [colScanInit]

/-- Effect of one scan step on the recorded maximum count. -/
theorem colStep_maxCount (s : ColScan) (op : Op) :
    (colStep s op).maxCount =
      if 0 ≤ op.SourceCol ∧ ((s.counts op.SourceCol : ℤ) + 1 > s.maxCount)
      then (s.counts op.SourceCol : ℤ) + 1 else s.maxCount := by
  by_cases h0 : 0 ≤ op.SourceCol
  · by_cases hgt : (s.counts op.SourceCol : ℤ) + 1 > s.maxCount
    · have hgt2 : ((s.counts op.SourceCol + 1 : ℕ) : ℤ) > s.maxCount := by push_cast; omega
      simp [colStep, h0, hgt, hgt2]
    · have hgt2 : ¬ ((s.counts op.SourceCol + 1 : ℕ) : ℤ) > s.maxCount := by
        push_cast at hgt ⊢; omega
      simp [colStep, h0, hgt, hgt2]
  · simp [colStep, h0]

/-- The scan invariant is preserved by each step. -/
theorem colInv_step (s : ColScan) (op : Op) (h : ColInv s) : ColInv (colStep s op) := by
  obtain ⟨h1, h2⟩ := h
  by_cases hcond : 0 ≤ op.SourceCol ∧ ((s.counts op.SourceCol : ℤ) + 1 > s.maxCount)
  · constructor
    · left
      rw [colStep_maxCol, colStep_maxCount, if_pos hcond, if_pos hcond, colStep_counts,
        if_pos ⟨hcond.1, rfl⟩]
      push_cast; ring
    · intro c
      rw [colStep_counts, colStep_maxCount, if_pos hcond]
      by_cases hx : 0 ≤ op.SourceCol ∧ op.SourceCol = c
      · rw [if_pos hx, ← hx.2]
        simp only [le_max_iff]
        left; push_cast; omega
      · rw [if_neg hx]
        have h4 := h2 c
        simp only [le_max_iff] at h4 ⊢
        have hgt := hcond.2
        rcases h4 with h4 | h4 <;> (left; push_cast; omega)
  · rcases h1 with h1 | h1
    · constructor
      · left
        rw [colStep_maxCol, colStep_maxCount, if_neg hcond, if_neg hcond, colStep_counts]
        by_cases hx : 0 ≤ op.SourceCol ∧ op.SourceCol = s.maxCol
        · exfalso
          have h3 : (s.counts op.SourceCol : ℤ) + 1 ≤ s.maxCount := by
            by_contra hgt
            exact hcond ⟨hx.1, by omega⟩
          rw [hx.2, h1] at h3
          omega
        · rw [if_neg hx]
          simpa using h1
      · intro c
        rw [colStep_counts, colStep_maxCount, if_neg hcond]
        by_cases hx : 0 ≤ op.SourceCol ∧ op.SourceCol = c
        · have h3 : (s.counts op.SourceCol : ℤ) + 1 ≤ s.maxCount := by
            by_contra hgt
            exact hcond ⟨hx.1, by omega⟩
          rw [if_pos hx, ← hx.2]
          simp only [le_max_iff]
          left; push_cast; omega
        · rw [if_neg hx]
          simpa using h2 c
    · have hneg : ¬ 0 ≤ op.SourceCol := by
        intro hge
        apply hcond
        refine ⟨hge, ?_⟩
        rw [h1.1, h1.2 op.SourceCol]
        norm_num
      constructor
      · right
        simpa [colStep, hneg] using h1
      · intro c
        simpa [colStep, hneg] using h2 c

/-- The scan invariant holds after any fold from an invariant state. -/
theorem colInv_foldl (ops : List Op) :
    ∀ s : ColScan, ColInv s → ColInv (List.foldl colStep s ops) := by
  induction ops with
  | nil => intro s h; exact h
  | cons op rest ih => intro s h; exact ih (colStep s op) (colInv_step s op h)

/-- The scan state decomposes over an appended record. -/
theorem colScan_append (ops : List Op) (op : Op) :
    colScan (ops ++ [op]) = colStep (colScan ops) op := by
  simp [colScan, List.foldl_append]

/-- C7: the noise filter computes a dominant source column whose count
(among records with a defined column) no other column exceeds, in one
left-to-right scan in which a new column becomes dominant only when its
count strictly exceeds the maximum so far — a later column reaching an
equal count never replaces it; the filter keeps exactly the records
lacking a source column or matching the dominant one, and on the
{100,100,100,250}-plus-total example it keeps the three records at
column 100 and the total-record. -/
theorem noise_filter_majority :
    (∀ ops : List Op, filterOnSourceColumn ops =
        ops.filter fun op =>
          decide (op.SourceCol < 0) || op.SourceCol == (colScan ops).maxCol) ∧
    (∀ (ops : List Op) (c : ℚ), colCount ops c ≤ colCount ops (colScan ops).maxCol) ∧
    (∀ (ops : List Op) (op : Op),
        (colScan (ops ++ [op])).maxCol =
          if 0 ≤ op.SourceCol ∧ ((colCount ops op.SourceCol : ℤ) + 1 > (colScan ops).maxCount)
          then op.SourceCol else (colScan ops).maxCol) ∧
    filterOnSourceColumn noiseOps =
      [⟨"a", "x", 100, 1, true, false⟩, ⟨"b", "y", 100, 2, true, false⟩,
       ⟨"c", "z", 100, 3, true, false⟩, ⟨"e", "u", -1, 5, true, true⟩] := by
  refine ⟨fun ops => rfl, ?_, ?_, by decide⟩
  · intro ops c
    have hinv : ColInv (colScan ops) := colInv_foldl ops colScanInit colInv_init
    have hc := colScan_counts ops c
    have hm := colScan_counts ops (colScan ops).maxCol
    rcases hinv.1 with h1 | h1
    · have h2 := hinv.2 c
      rw [hc] at h2
      rw [hm] at h1
      simp only [le_max_iff] at h2
      have : (colCount ops c : ℤ) ≤ (colCount ops (colScan ops).maxCol : ℤ) := by omega
      exact_mod_cast this
    · have := h1.2 c
      rw [hc] at this
      simp [this]
  · intro ops op
    rw [colScan_append, colStep_maxCol, colScan_counts]

/-- Value and record lists related by `ChainRel` have equal lengths. -/
theorem chainRel_length {t : ℤ} {ops : List Op} {vs : List Value}
    (h : ChainRel t ops vs) : vs.length = ops.length := by
  induction h <;> simp [*]

/-- Every successful run of the reconciler loop extends the accumulator
with a value list chained to the records. -/
theorem convertAux_chain (ops : List Op) :
    ∀ (t : ℤ) (acc out : List Value), convertAux t acc ops = .ok out →
      ∃ vs, out = acc ++ vs ∧ ChainRel t ops vs := by
  induction ops with
  | nil =>
    intro t acc out h
    simp only [convertAux, Except.ok.injEq] at h
    exact ⟨[], by simp [← h], ChainRel.nil t⟩
  | cons op rest ih =>
    intro t acc out h
    simp only [convertAux] at h
    split at h
    · -- total record
      rename_i hT
      split at h
      · simp at h
      · rename_i hv
        push_neg at hv
        split at h
        · simp at h
        · rename_i date heq
          obtain ⟨vs, hout, hchain⟩ := ih t _ out h
          refine ⟨⟨date, op.Source, t⟩ :: vs, by simp [hout], ?_⟩
          exact ChainRel.tot t op _ rest vs hT hv rfl hchain
    · -- change record
      rename_i hT
      split at h
      · simp at h
      · rename_i pv heq
        split at h
        · simp at h
        · rename_i date heq2
          obtain ⟨vs, hout, hchain⟩ := ih (wrapInt64 (t + op.Value)) _ out h
          refine ⟨⟨date, op.Source, wrapInt64 (t + op.Value)⟩ :: vs, by simp [hout], ?_⟩
          exact ChainRel.chg t op _ rest vs (by simpa using hT) rfl hchain

/-- Indexed reading of `ChainRel`: a total-record's value states its own
amount; a change-record's value is the previous value (or the starting
total at index 0) shifted by its amount under wrapping int64
addition. -/
theorem chainRel_getD {t : ℤ} {ops : List Op} {vs : List Value} (h : ChainRel t ops vs) :
    ∀ i, i < ops.length →
      ((ops.getD i default).IsTotal = true →
        (vs.getD i default).Value = (ops.getD i default).Value) ∧
      ((ops.getD i default).IsTotal = false →
        (vs.getD i default).Value =
          wrapInt64 ((if i = 0 then t else (vs.getD (i - 1) default).Value) +
            (ops.getD i default).Value)) := by
  induction h with
  | nil => intro i hi; simp at hi
  | tot t op v ops vs hT hV hvv hrec ih =>
    intro i hi
    match i with
    | 0 =>
      refine ⟨fun _ => by simpa using hvv.trans hV.symm, fun hF => ?_⟩
      simp only [List.getD_cons_zero] at hF
      rw [hT] at hF
      cases hF
    | j + 1 =>
      have hj : j < ops.length := by simpa using hi
      have hij := ih j hj
      simp only [List.getD_cons_succ, Nat.add_sub_cancel, Nat.succ_ne_zero, if_false]
      refine ⟨hij.1, fun hF => ?_⟩
      have h2 := hij.2 hF
      match j with
      | 0 => simpa [hvv] using h2
      | k + 1 => simpa using h2
  | chg t op v ops vs hF hvv hrec ih =>
    intro i hi
    match i with
    | 0 =>
      refine ⟨fun hT => ?_, fun _ => by simpa using hvv⟩
      simp only [List.getD_cons_zero] at hT
      rw [hF] at hT
      cases hT
    | j + 1 =>
      have hj : j < ops.length := by simpa using hi
      have hij := ih j hj
      simp only [List.getD_cons_succ, Nat.add_sub_cancel, Nat.succ_ne_zero, if_false]
      refine ⟨hij.1, fun hF2 => ?_⟩
      have h2 := hij.2 hF2
      match j with
      | 0 => simpa [hvv] using h2
      | k + 1 => simpa using h2

/-- Last element of a nonempty list via `getD` at the last index. -/
theorem getLastD_eq_getD {α : Type} [Inhabited α] (l : List α) (hl : l ≠ []) :
    l.getLastD default = l.getD (l.length - 1) default := by
  induction l with
  | nil => simp at hl
  | cons a m ih =>
    cases m with
    | nil => simp
    | cons b m2 =>
      have hrec := ih (by simp)
      rw [List.getLastD_eq_getLast?, List.getLast?_cons_cons, ← List.getLastD_eq_getLast?,
        hrec]
      have hlen : (a :: b :: m2).length - 1 = ((b :: m2).length - 1) + 1 := by simp
      rw [hlen, List.getD_cons_succ]

/-- C3, counterexample: the reconciler accepts `wrapOps` — Go's
wrapping int64 addition turns the maximal total plus 2 into the
matching negative closing total — but the emitted balances do not
differ by the change-record's plain-integer amount: the jump is
-(2^64) + 2, not +2. -/
theorem reconciler_invariant_counterexample :
    convertOpsToValues wrapOps = .ok wrapValues ∧
    (wrapOps.getD 1 default).IsTotal = false ∧
    ¬ ((wrapValues.getD 1 default).Value =
        (wrapValues.getD 0 default).Value + (wrapOps.getD 1 default).Value) := by
  refine ⟨by decide, by decide, by decide⟩

/-- C3, amended: for every record sequence the reconciler accepts, one
value is emitted per record; for i > 0, the value at a total-record
states the record's verified amount and the value at a change-record
is the previous value shifted by the record's amount under Go's
wrapping int64 addition (reduction into [-2^63, 2^63-1] modulo 2^64);
the last record is a total and the final value equals its stated
amount exactly. -/
theorem reconciler_invariant (ops : List Op) (values : List Value)
    (h : convertOpsToValues ops = .ok values) :
    values.length = ops.length ∧
    (∀ i, 0 < i → i < ops.length →
      ((ops.getD i default).IsTotal = true →
        (values.getD i default).Value = (ops.getD i default).Value) ∧
      ((ops.getD i default).IsTotal = false →
        (values.getD i default).Value =
          wrapInt64 ((values.getD (i - 1) default).Value + (ops.getD i default).Value))) ∧
    (ops.getLastD default).IsTotal = true ∧
    (values.getLastD default).Value = (ops.getLastD default).Value := by
  unfold convertOpsToValues at h
  by_cases hlen : ops.length < 2
  · simp [hlen] at h
  simp only [hlen, if_false] at h
  by_cases hf : (ops.headD default).IsTotal
  case neg =>
    have hf2 : (ops.headD default).IsTotal = false := by
      cases hx : (ops.headD default).IsTotal
      · rfl
      · exact absurd hx hf
    rw [if_pos (show (!(ops.headD default).IsTotal) = true by rw [hf2]; rfl)] at h
    simp at h
  rw [if_neg (show ¬ ((!(ops.headD default).IsTotal) = true) by rw [hf]; simp)] at h
  by_cases hl : (ops.getLastD default).IsTotal
  case neg =>
    have hl2 : (ops.getLastD default).IsTotal = false := by
      cases hx : (ops.getLastD default).IsTotal
      · rfl
      · exact absurd hx hl
    rw [if_pos (show (!(ops.getLastD default).IsTotal) = true by rw [hl2]; rfl)] at h
    simp at h
  rw [if_neg (show ¬ ((!(ops.getLastD default).IsTotal) = true) by rw [hl]; simp)] at h
  obtain ⟨vs, hout, hchain⟩ := convertAux_chain ops _ [] values h
  simp only [List.nil_append] at hout
  subst hout
  have hne : ops ≠ [] := by
    intro he
    rw [he] at hlen
    simp at hlen
  have hvne : values ≠ [] := by
    intro he
    have hlen2 := chainRel_length hchain
    rw [he] at hlen2
    exact hne (List.length_eq_zero.mp hlen2.symm)
  refine ⟨chainRel_length hchain, ?_, hl, ?_⟩
  · intro i h0 hi
    have hgi := chainRel_getD hchain i hi
    exact ⟨hgi.1, fun hF => by
      have h2 := hgi.2 hF
      rwa [if_neg (by omega)] at h2⟩
  · have hi : ops.length - 1 < ops.length := by omega
    have hgi := (chainRel_getD hchain (ops.length - 1) hi).1
    rw [getLastD_eq_getD ops hne, getLastD_eq_getD values hvne, chainRel_length hchain]
    apply hgi
    rw [← getLastD_eq_getD ops hne]
    exact hl

/-- C3, witness: the reconciler accepts `chainOps` and emits
`chainValues`, whose length matches and whose final balance is the last
total's stated amount 150. -/
theorem reconciler_invariant_witness :
    convertOpsToValues chainOps = .ok chainValues ∧
    chainValues.length = chainOps.length ∧
    (chainValues.getLastD default).Value = (chainOps.getLastD default).Value :=
  ⟨by decide, (reconciler_invariant chainOps chainValues (by decide)).1,
   (reconciler_invariant chainOps chainValues (by decide)).2.2.2⟩

/-- The dedup loop's output decomposes as the accumulator followed by
the output from an empty accumulator. -/
theorem dedupAux_acc (l : List Op) :
    ∀ (seen : List String) (acc : List Op),
      dedupAux seen acc l = ((dedupAux seen [] l).1, acc ++ (dedupAux seen [] l).2) := by
  induction l with
  | nil => intro seen acc; simp [dedupAux]
  | cons op rest ih =>
    intro seen acc
    by_cases hm : hashOp op ∈ seen
    · simp only [dedupAux, if_pos hm]
      exact ih seen acc
    · simp only [dedupAux, if_neg hm]
      rw [ih _ (acc ++ [op]), ih _ ([] ++ [op])]
      simp

/-- The dedup loop over concatenated lists chains the seen set and the
accumulator through the first list. -/
theorem dedupAux_append (xs ys : List Op) :
    ∀ (seen : List String) (acc : List Op),
      dedupAux seen acc (xs ++ ys) =
        dedupAux (dedupAux seen acc xs).1 (dedupAux seen acc xs).2 ys := by
  induction xs with
  | nil => intro seen acc; simp [dedupAux]
  | cons op rest ih =>
    intro seen acc
    by_cases hm : hashOp op ∈ seen
    · simp only [List.cons_append, dedupAux, if_pos hm]
      exact ih seen acc
    · simp only [List.cons_append, dedupAux, if_neg hm]
      exact ih _ _

/-- Cross-page deduplication equals one dedup pass over the
concatenation of the pages. -/
theorem extractPDFOps_join (pages : List (List Op)) :
    extractPDFOps pages = (dedupAux [] [] pages.flatten).2 := by
  suffices h : ∀ (ps : List (List Op)) (st : List String × List Op),
      ps.foldl (fun st page => dedupAux st.1 st.2 page) st = dedupAux st.1 st.2 ps.flatten by
    rw [extractPDFOps, h pages ([], [])]
  intro ps
  induction ps with
  | nil => intro st; simp [dedupAux]
  | cons page rest ih =>
    intro st
    rw [List.foldl_cons, ih (dedupAux st.1 st.2 page), List.flatten_cons, dedupAux_append]

/-- The deduplicated output is a subsequence of the input (order
preserved, nothing invented). -/
theorem dedupAux_sublist (l : List Op) :
    ∀ seen : List String, List.Sublist (dedupAux seen [] l).2 l := by
  induction l with
  | nil => intro seen; simp [dedupAux]
  | cons op rest ih =>
    intro seen
    by_cases hm : hashOp op ∈ seen
    · simp only [dedupAux, if_pos hm]
      exact (ih seen).cons op
    · simp only [dedupAux, if_neg hm]
      rw [dedupAux_acc]
      simpa using (ih (hashOp op :: seen)).cons₂ op

/-- Every kept record's key was not in the incoming seen set. -/
theorem dedupAux_not_seen (l : List Op) :
    ∀ (seen : List String) (op : Op), op ∈ (dedupAux seen [] l).2 → hashOp op ∉ seen := by
  induction l with
  | nil => intro seen op h; simp [dedupAux] at h
  | cons c rest ih =>
    intro seen op h
    by_cases hm : hashOp c ∈ seen
    · simp only [dedupAux, if_pos hm] at h
      exact ih seen op h
    · simp only [dedupAux, if_neg hm] at h
      rw [dedupAux_acc] at h
      simp only [List.nil_append, List.singleton_append, List.mem_cons] at h
      rcases h with h | h
      · rw [h]; exact hm
      · have := ih (hashOp c :: seen) op h
        exact fun hx => this (List.mem_cons_of_mem _ hx)

/-- The kept records have pairwise distinct keys. -/
theorem dedupAux_nodup (l : List Op) :
    ∀ seen : List String, ((dedupAux seen [] l).2.map hashOp).Nodup := by
  induction l with
  | nil => intro seen; simp [dedupAux]
  | cons c rest ih =>
    intro seen
    by_cases hm : hashOp c ∈ seen
    · simp only [dedupAux, if_pos hm]
      exact ih seen
    · simp only [dedupAux, if_neg hm]
      rw [dedupAux_acc]
      simp only [List.nil_append, List.singleton_append, List.map_cons, List.nodup_cons]
      refine ⟨fun hx => ?_, ih (hashOp c :: seen)⟩
      obtain ⟨op, hop, heq⟩ := List.mem_map.mp hx
      exact dedupAux_not_seen rest _ op hop (by rw [heq]; exact List.mem_cons_self _ _)

/-- Every input record's key is represented in the output. -/
theorem dedupAux_covers (l : List Op) :
    ∀ (seen : List String) (op : Op), op ∈ l →
      hashOp op ∈ seen ∨ ∃ op2 ∈ (dedupAux seen [] l).2, hashOp op2 = hashOp op := by
  induction l with
  | nil => intro seen op h; simp at h
  | cons c rest ih =>
    intro seen op h
    rcases List.mem_cons.mp h with h | h
    · subst h
      by_cases hm : hashOp op ∈ seen
      · exact Or.inl hm
      · refine Or.inr ⟨op, ?_, rfl⟩
        simp only [dedupAux, if_neg hm]
        rw [dedupAux_acc]
        simp
    · by_cases hm : hashOp c ∈ seen
      · simp only [dedupAux, if_pos hm]
        exact ih seen op h
      · rcases ih (hashOp c :: seen) op h with hseen | ⟨op2, hop2, heq⟩
        · rcases List.mem_cons.mp hseen with he | he
          · refine Or.inr ⟨c, ?_, he.symm⟩
            simp only [dedupAux, if_neg hm]
            rw [dedupAux_acc]
            simp
          · exact Or.inl he
        · refine Or.inr ⟨op2, ?_, heq⟩
          simp only [dedupAux, if_neg hm]
          rw [dedupAux_acc]
          simp only [List.nil_append, List.singleton_append, List.mem_cons]
          exact Or.inr hop2

/-- Every kept record is the first record of the input with its key. -/
theorem dedupAux_first (l : List Op) :
    ∀ (seen : List String) (op : Op), op ∈ (dedupAux seen [] l).2 →
      l.find? (fun x => hashOp x == hashOp op) = some op := by
  induction l with
  | nil => intro seen op h; simp [dedupAux] at h
  | cons c rest ih =>
    intro seen op h
    by_cases hm : hashOp c ∈ seen
    · simp only [dedupAux, if_pos hm] at h
      have hne : hashOp c ≠ hashOp op := by
        intro he
        exact dedupAux_not_seen rest seen op h (he ▸ hm)
      rw [List.find?_cons_of_neg _ (by simpa using hne)]
      exact ih seen op h
    · simp only [dedupAux, if_neg hm] at h
      rw [dedupAux_acc] at h
      simp only [List.nil_append, List.singleton_append, List.mem_cons] at h
      rcases h with h | h
      · subst h
        rw [List.find?_cons_of_pos _ (by simp)]
      · have hnotin := dedupAux_not_seen rest (hashOp c :: seen) op h
        have hne : hashOp c ≠ hashOp op := by
          intro he
          exact hnotin (he ▸ List.mem_cons_self _ _)
        rw [List.find?_cons_of_neg _ (by simpa using hne)]
        exact ih (hashOp c :: seen) op h

/-- C8: cross-page deduplication is one first-occurrence scan of the
concatenated pages: the output is a subsequence of the input, keeps at
most one record per key, covers every input key, and each kept record
is the input's first record with its key; a second page repeating
records of the first page verbatim contributes each repeated record
exactly once. -/
theorem dedup_first_occurrence :
    (∀ pages : List (List Op), extractPDFOps pages = (dedupAux [] [] pages.flatten).2) ∧
    (∀ l : List Op, List.Sublist (dedupAux [] [] l).2 l) ∧
    (∀ l : List Op, ((dedupAux [] [] l).2.map hashOp).Nodup) ∧
    (∀ (l : List Op) (op : Op), op ∈ l →
        ∃ op2 ∈ (dedupAux [] [] l).2, hashOp op2 = hashOp op) ∧
    (∀ (l : List Op) (op : Op), op ∈ (dedupAux [] [] l).2 →
        l.find? (fun x => hashOp x == hashOp op) = some op) ∧
    extractPDFOps [[op1ex, op2ex, op3ex], [op2ex, op3ex, op4ex]] =
      [op1ex, op2ex, op3ex, op4ex] := by
  refine ⟨extractPDFOps_join, fun l => dedupAux_sublist l [], fun l => dedupAux_nodup l [],
    ?_, fun l op h => dedupAux_first l [] op h, by decide⟩
  intro l op h
  rcases dedupAux_covers l [] op h with hseen | hex
  · simp at hseen
  · exact hex

/-- C8, witness: on a list repeating one record, the kept record
represents the repeated key, and the find-first characterization at a
concrete kept record. -/
theorem dedup_first_occurrence_witness :
    (∃ op2 ∈ (dedupAux [] [] [op1ex, op1ex]).2, hashOp op2 = hashOp op1ex) ∧
    ([op1ex, op2ex] : List Op).find? (fun x => hashOp x == hashOp op1ex) = some op1ex :=
  ⟨dedup_first_occurrence.2.2.2.1 [op1ex, op1ex] op1ex (by decide),
   dedup_first_occurrence.2.2.2.2.1 [op1ex, op2ex] op1ex (by decide)⟩

/-- With fuel exceeding the number of identities outside the on-path
set, the traversal never exhausts its fuel: the recursion depth is
bounded because every descent inserts a fresh identity into the finite
universe. -/
theorem walkNodeF_no_fuelOut {E : Type} (g : PdfGraph) (cb : ℕ → Except E Unit)
    (hclose : ∀ i c, c ∈ g.children i → c ∈ g.ids) :
    ∀ (fuel v : ℕ) (seen : Finset ℕ), seen ⊆ g.ids → g.ids.card - seen.card < fuel →
      (walkNodeF g cb fuel v seen).2 ≠ .fuelOut := by
  intro fuel
  induction fuel with
  | zero => intro v seen hs hlt; exact absurd hlt (Nat.not_lt_zero _)
  | succ n ihn =>
    have hkids : ∀ (cs : List ℕ) (seen : Finset ℕ), (∀ c ∈ cs, c ∈ g.ids) →
        seen ⊆ g.ids → g.ids.card - seen.card ≤ n →
        (walkKids (walkNodeF g cb n) cs seen).2 ≠ .fuelOut := by
      intro cs
      induction cs with
      | nil => intro seen _ _ _; simp [walkKids]
      | cons c cs ihc =>
        intro seen hcs hs hle
        by_cases hm : c ∈ seen
        · simp only [walkKids, if_pos hm]
          exact ihc seen (fun x hx => hcs x (List.mem_cons_of_mem _ hx)) hs hle
        · simp only [walkKids, if_neg hm]
          have hcid : c ∈ g.ids := hcs c (List.mem_cons_self _ _)
          have hsub : insert c seen ⊆ g.ids := Finset.insert_subset hcid hs
          have hcard : (insert c seen).card = seen.card + 1 :=
            Finset.card_insert_of_not_mem hm
          have hlt2 : g.ids.card - (insert c seen).card < n := by
            have h1 : (insert c seen).card ≤ g.ids.card := Finset.card_le_card hsub
            omega
          have hnode := ihn c (insert c seen) hsub hlt2
          cases hr : (walkNodeF g cb n c (insert c seen)).2 with
          | ok =>
            simp only [hr]
            exact ihc seen (fun x hx => hcs x (List.mem_cons_of_mem _ hx)) hs hle
          | err e => simp only [hr]; simp
          | fuelOut => exact absurd hr hnode
    intro v seen hs hlt
    simp only [walkNodeF]
    cases hcb : cb v with
    | error e => simp
    | ok u =>
      have hn : g.ids.card - seen.card ≤ n := by omega
      cases hk : g.kind v with
      | dict =>
        simp only []
        exact hkids (g.children v) seen (fun c hc => hclose v c hc) hs hn
      | array =>
        simp only []
        exact hkids (g.children v) seen (fun c hc => hclose v c hc) hs hn
      | stream => simp
      | scalar => simp

/-- Every identity in the trace of a node walk is the node itself or
lies outside the incoming on-path set: the walk never descends into an
identity already on the current path. -/
theorem walkNodeF_trace_mem {E : Type} (g : PdfGraph) (cb : ℕ → Except E Unit) :
    ∀ (fuel v : ℕ) (seen : Finset ℕ) (x : ℕ),
      x ∈ (walkNodeF g cb fuel v seen).1 → x = v ∨ x ∉ seen := by
  intro fuel
  induction fuel with
  | zero => intro v seen x hx; simp [walkNodeF] at hx
  | succ n ihn =>
    have hkids : ∀ (cs : List ℕ) (seen : Finset ℕ) (x : ℕ),
        x ∈ (walkKids (walkNodeF g cb n) cs seen).1 → x ∉ seen := by
      intro cs
      induction cs with
      | nil => intro seen x hx; simp [walkKids] at hx
      | cons c cs ihc =>
        intro seen x hx
        by_cases hm : c ∈ seen
        · simp only [walkKids, if_pos hm] at hx
          exact ihc seen x hx
        · simp only [walkKids, if_neg hm] at hx
          have hnode : x ∈ (walkNodeF g cb n c (insert c seen)).1 → x ∉ seen := by
            intro hxr
            rcases ihn c (insert c seen) x hxr with he | he
            · rw [he]; exact hm
            · exact fun hxs => he (Finset.mem_insert_of_mem hxs)
          cases hr : (walkNodeF g cb n c (insert c seen)).2 with
          | ok =>
            rw [hr] at hx
            simp only [List.mem_append] at hx
            rcases hx with hx | hx
            · exact hnode hx
            · exact ihc seen x hx
          | err e => rw [hr] at hx; exact hnode hx
          | fuelOut => rw [hr] at hx; exact hnode hx
    intro v seen x hx
    simp only [walkNodeF] at hx
    cases hcb : cb v with
    | error e => rw [hcb] at hx; simp at hx; exact Or.inl hx
    | ok u =>
      rw [hcb] at hx
      cases hk : g.kind v with
      | dict =>
        rw [hk] at hx
        simp only [List.mem_cons] at hx
        rcases hx with hx | hx
        · exact Or.inl hx
        · exact Or.inr (hkids (g.children v) seen x hx)
      | array =>
        rw [hk] at hx
        simp only [List.mem_cons] at hx
        rcases hx with hx | hx
        · exact Or.inl hx
        · exact Or.inr (hkids (g.children v) seen x hx)
      | stream => rw [hk] at hx; simp at hx; exact Or.inl hx
      | scalar => rw [hk] at hx; simp at hx; exact Or.inl hx

/-- On a clean walk, every visited node's callback succeeded. -/
theorem walkNodeF_ok_trace {E : Type} (g : PdfGraph) (cb : ℕ → Except E Unit) :
    ∀ (fuel v : ℕ) (seen : Finset ℕ), (walkNodeF g cb fuel v seen).2 = .ok →
      ∀ x ∈ (walkNodeF g cb fuel v seen).1, cb x = .ok () := by
  intro fuel
  induction fuel with
  | zero => intro v seen hok; simp [walkNodeF] at hok
  | succ n ihn =>
    have hkids : ∀ (cs : List ℕ) (seen : Finset ℕ),
        (walkKids (walkNodeF g cb n) cs seen).2 = .ok →
        ∀ x ∈ (walkKids (walkNodeF g cb n) cs seen).1, cb x = .ok () := by
      intro cs
      induction cs with
      | nil => intro seen _ x hx; simp [walkKids] at hx
      | cons c cs ihc =>
        intro seen hok x hx
        by_cases hm : c ∈ seen
        · simp only [walkKids, if_pos hm] at hok hx
          exact ihc seen hok x hx
        · simp only [walkKids, if_neg hm] at hok hx
          cases hr : (walkNodeF g cb n c (insert c seen)).2 with
          | ok =>
            rw [hr] at hok hx
            simp only [List.mem_append] at hx
            rcases hx with hx | hx
            · exact ihn c (insert c seen) hr x hx
            · exact ihc seen hok x hx
          | err e => rw [hr] at hok; cases hok
          | fuelOut => rw [hr] at hok; cases hok
    intro v seen hok x hx
    simp only [walkNodeF] at hok hx
    cases hcb : cb v with
    | error e => rw [hcb] at hok; cases hok
    | ok u =>
      rw [hcb] at hok hx
      cases u
      cases hk : g.kind v with
      | dict =>
        rw [hk] at hok hx
        simp only [List.mem_cons] at hx
        rcases hx with hx | hx
        · rw [hx]; exact hcb
        · exact hkids (g.children v) seen hok x hx
      | array =>
        rw [hk] at hok hx
        simp only [List.mem_cons] at hx
        rcases hx with hx | hx
        · rw [hx]; exact hcb
        · exact hkids (g.children v) seen hok x hx
      | stream =>
        rw [hk] at hx
        simp at hx
        rw [hx]; exact hcb
      | scalar =>
        rw [hk] at hx
        simp at hx
        rw [hx]; exact hcb

/-- A walk ending in an error visited a sequence of succeeding
callbacks followed by exactly the first failing one, whose error is
propagated. -/
theorem walkNodeF_err_trace {E : Type} (g : PdfGraph) (cb : ℕ → Except E Unit) :
    ∀ (fuel v : ℕ) (seen : Finset ℕ) (e : E), (walkNodeF g cb fuel v seen).2 = .err e →
      ∃ t0 w, (walkNodeF g cb fuel v seen).1 = t0 ++ [w] ∧ cb w = .error e ∧
        ∀ x ∈ t0, cb x = .ok () := by
  intro fuel
  induction fuel with
  | zero => intro v seen e he; simp [walkNodeF] at he
  | succ n ihn =>
    have hkids : ∀ (cs : List ℕ) (seen : Finset ℕ) (e : E),
        (walkKids (walkNodeF g cb n) cs seen).2 = .err e →
        ∃ t0 w, (walkKids (walkNodeF g cb n) cs seen).1 = t0 ++ [w] ∧ cb w = .error e ∧
          ∀ x ∈ t0, cb x = .ok () := by
      intro cs
      induction cs with
      | nil => intro seen e he; simp [walkKids] at he
      | cons c cs ihc =>
        intro seen e he
        by_cases hm : c ∈ seen
        · simp only [walkKids, if_pos hm] at he ⊢
          exact ihc seen e he
        · simp only [walkKids, if_neg hm] at he ⊢
          cases hr : (walkNodeF g cb n c (insert c seen)).2 with
          | ok =>
            rw [hr] at he
            dsimp only at he
            obtain ⟨t0, w, ht, hw, hpre⟩ := ihc seen e he
            refine ⟨(walkNodeF g cb n c (insert c seen)).1 ++ t0, w, by simp [ht], hw, ?_⟩
            intro x hx
            rcases List.mem_append.mp hx with hx | hx
            · exact walkNodeF_ok_trace g cb n c (insert c seen) hr x hx
            · exact hpre x hx
          | err e2 =>
            rw [hr] at he
            dsimp only at he
            injection he with he2
            subst he2
            exact ihn c (insert c seen) _ hr
          | fuelOut =>
            rw [hr] at he
            simp at he
    intro v seen e he
    simp only [walkNodeF] at he ⊢
    cases hcb : cb v with
    | error e2 =>
      rw [hcb] at he
      dsimp only at he
      injection he with he2
      subst he2
      exact ⟨[], v, rfl, hcb, by simp⟩
    | ok u =>
      cases u
      rw [hcb] at he
      dsimp only at he
      cases hk : g.kind v with
      | dict =>
        rw [hk] at he
        dsimp only at he
        obtain ⟨t0, w, ht, hw, hpre⟩ := hkids (g.children v) seen e he
        refine ⟨v :: t0, w, by simp [ht], hw, ?_⟩
        intro x hx
        rcases List.mem_cons.mp hx with hx | hx
        · rw [hx]; exact hcb
        · exact hpre x hx
      | array =>
        rw [hk] at he
        dsimp only at he
        obtain ⟨t0, w, ht, hw, hpre⟩ := hkids (g.children v) seen e he
        refine ⟨v :: t0, w, by simp [ht], hw, ?_⟩
        intro x hx
        rcases List.mem_cons.mp hx with hx | hx
        · rw [hx]; exact hcb
        · exact hpre x hx
      | stream =>
        rw [hk] at he
        simp at he
      | scalar =>
        rw [hk] at he
        simp at he

/-- No identity visited while walking a node's children lies in the
incoming on-path set. -/
theorem walkKids_trace_mem {E : Type} (g : PdfGraph) (cb : ℕ → Except E Unit)
    (fuel : ℕ) (cs : List ℕ) (seen : Finset ℕ) :
    ∀ x ∈ (walkKids (walkNodeF g cb fuel) cs seen).1, x ∉ seen := by
  induction cs with
  | nil => intro x hx; simp [walkKids] at hx
  | cons c cs ihc =>
    intro x hx
    by_cases hm : c ∈ seen
    · simp only [walkKids, if_pos hm] at hx
      exact ihc x hx
    · simp only [walkKids, if_neg hm] at hx
      have hnode : x ∈ (walkNodeF g cb fuel c (insert c seen)).1 → x ∉ seen := by
        intro hxr
        rcases walkNodeF_trace_mem g cb fuel c (insert c seen) x hxr with he | he
        · rw [he]; exact hm
        · exact fun hxs => he (Finset.mem_insert_of_mem hxs)
      cases hr : (walkNodeF g cb fuel c (insert c seen)).2 with
      | ok =>
        rw [hr] at hx
        simp only [List.mem_append] at hx
        rcases hx with hx | hx
        · exact hnode hx
        · exact ihc x hx
      | err e => rw [hr] at hx; exact hnode hx
      | fuelOut => rw [hr] at hx; exact hnode hx

/-- C9: the object-graph walk terminates on every finite graph,
including cyclic and self-referential ones (the fuel bound is never
hit); it visits the node first and never descends into a child identity
already on the current traversal path; it stops at the first callback
failure and propagates that error; on the self-loop graph it terminates
with trace [0, 0], and on the diamond graph it revisits the shared node
3 once per non-cyclic path, with trace [0, 1, 3, 2, 3]. -/
theorem walk_cycle_safe :
    (∀ (E : Type) (g : PdfGraph) (cb : ℕ → Except E Unit) (root : ℕ),
        (∀ i c, c ∈ g.children i → c ∈ g.ids) → (walk g cb root).2 ≠ .fuelOut) ∧
    (∀ (E : Type) (g : PdfGraph) (cb : ℕ → Except E Unit) (fuel v : ℕ) (seen : Finset ℕ),
        ∃ rest, (walkNodeF g cb (fuel + 1) v seen).1 = v :: rest ∧
          ∀ x ∈ rest, x ∉ seen) ∧
    (∀ (E : Type) (g : PdfGraph) (cb : ℕ → Except E Unit) (root : ℕ) (e : E),
        cb root = .error e → walk g cb root = ([root], .err e)) ∧
    (∀ (E : Type) (g : PdfGraph) (cb : ℕ → Except E Unit) (root : ℕ) (e : E),
        (walk g cb root).2 = .err e →
        ∃ t0 w, (walk g cb root).1 = t0 ++ [w] ∧ cb w = .error e ∧
          ∀ x ∈ t0, cb x = .ok ()) ∧
    walk selfLoopG (fun _ => (Except.ok () : Except Unit Unit)) 0 = ([0, 0], .ok) ∧
    walk diamondG (fun _ => (Except.ok () : Except Unit Unit)) 0 = ([0, 1, 3, 2, 3], .ok) := by
  refine ⟨?_, ?_, ?_, ?_, by decide, by decide⟩
  · intro E g cb root hclose
    exact walkNodeF_no_fuelOut g cb hclose (g.ids.card + 1) root ∅ (Finset.empty_subset _)
      (by simp)
  · intro E g cb fuel v seen
    cases hcb : cb v with
    | error e => exact ⟨[], by simp [walkNodeF, hcb], by simp⟩
    | ok u =>
      cases hk : g.kind v with
      | dict =>
        exact ⟨(walkKids (walkNodeF g cb fuel) (g.children v) seen).1,
          by simp [walkNodeF, hcb, hk], walkKids_trace_mem g cb fuel (g.children v) seen⟩
      | array =>
        exact ⟨(walkKids (walkNodeF g cb fuel) (g.children v) seen).1,
          by simp [walkNodeF, hcb, hk], walkKids_trace_mem g cb fuel (g.children v) seen⟩
      | stream => exact ⟨[], by simp [walkNodeF, hcb, hk], by simp⟩
      | scalar => exact ⟨[], by simp [walkNodeF, hcb, hk], by simp⟩
  · intro E g cb root e hcb
    simp [walk, walkNodeF, hcb]
  · intro E g cb root e he
    exact walkNodeF_err_trace g cb (g.ids.card + 1) root ∅ e he

/-- C9, witness: the termination conjunct applied to the self-loop
graph (its children lie in its identity universe), and the
first-failure conjunct applied to a walk of the diamond graph whose
callback fails at node 3. -/
theorem walk_cycle_safe_witness :
    (walk selfLoopG (fun _ => (Except.ok () : Except Unit Unit)) 0).2 ≠ .fuelOut ∧
    ∃ t0 w, (walk diamondG cbErr3 0).1 = t0 ++ [w] ∧ cbErr3 w = .error "boom" ∧
      ∀ x ∈ t0, cbErr3 x = .ok () :=
  ⟨walk_cycle_safe.1 Unit selfLoopG _ 0 (fun i c hc => by
      simp only [selfLoopG] at hc ⊢
      by_cases hi : i = 0
      · rw [if_pos hi] at hc
        simp at hc
        simp [hc]
      · rw [if_neg hi] at hc
        simp at hc),
   walk_cycle_safe.2.2.2.1 String diamondG cbErr3 0 "boom" (by decide)⟩

end Bnp
